import Mathlib

/-!
Verification of the Text-Formatter core (src/text_formatter.py).

The program is a small regex pipeline.  We shallowly embed each of the
regular-expression substitutions of `TextFormatter` as an executable
function on `List Char`, following Python `re` semantics (leftmost
scanning, greedy or lazy quantifiers, `re.MULTILINE` and `re.DOTALL`
flags) for the specific pattern involved.  Character classes are
modelled on their ASCII part, which covers all inputs used here.

Source map:
  * `_extract_metadata`    -> `extractMetadata` (with `tryK`, `findClose3`,
                              `parseMeta`, `pyFindKV`)
  * `_replace_file_marks`  -> `formatBody` = `subParagraph ∘ pre11`,
                              where `pre11` chains rules 1-10 of
                              `_REPLACE_REGEXES` in source order
  * `_merge_with_template` -> `mergeWithTemplate` (with `subTemplate`)
-/

/-- Python `\s` on ASCII: space, tab, newline, carriage return,
vertical tab, form feed. -/
def isPySpace (c : Char) : Bool :=
  c == ' ' || c == '\t' || c == '\n' || c == '\r' || c == '\x0b' || c == '\x0c'

/-- The template placeholder class `[A-Za-z0-9_\-]` of
`_merge_with_template`. -/
def isIdentChar (c : Char) : Bool :=
  c.isAlpha || c.isDigit || c == '_' || c == '-'

/-- The metadata key class `[\w\-]` (ASCII part) of `_extract_metadata`. -/
def isWordDash (c : Char) : Bool :=
  c.isAlphanum || c == '_' || c == '-'

/-- Scanner for the lazy closing delimiter of `\*\*(.*?)\*\*` (and
`\~\~(.*?)\~\~`): given the text after the opening `dd`, returns the
shortest newline-free content followed by the text after the closing
`dd`, or `none` when no close exists on the current line (`.` does not
match a newline). -/
def close2 (d : Char) : List Char → Option (List Char × List Char)
  | [] => none
  | c :: rest =>
    if c = d ∧ rest.head? = some d then some ([], rest.tail)
    else if c = '\n' then none
    else (close2 d rest).map fun p => (c :: p.1, p.2)

/-- Scanner for the lazy closing delimiter of `\*(.*?)\*` and
`\_(.*?)\_`. -/
def close1 (d : Char) : List Char → Option (List Char × List Char)
  | [] => none
  | c :: rest =>
    if c = d then some ([], rest)
    else if c = '\n' then none
    else (close1 d rest).map fun p => (c :: p.1, p.2)

theorem close2_eq_some {d : Char} : ∀ {l : List Char} {p},
    close2 d l = some p → l = p.1 ++ d :: d :: p.2 := by
  intro l
  induction l with
  | nil => intro p h; simp [close2] at h
  | cons c rest ih =>
    intro p h
    unfold close2 at h
    split at h
    · rename_i hc
      obtain ⟨hcd, hh⟩ := hc
      injection h with h
      subst h
      cases rest with
      | nil => simp at hh
      | cons b t =>
        simp at hh
        simp [hcd, hh]
    · split at h
      · exact absurd h (by simp)
      · cases hp : close2 d rest with
        | none => rw [hp] at h; simp at h
        | some q =>
          rw [hp] at h
          simp at h
          have := ih hp
          subst this
          cases p with
          | mk a b =>
            simp at h
            obtain ⟨h1, h2⟩ := h
            simp [← h1, ← h2]

theorem close2_length {d : Char} {l : List Char} {p}
    (h : close2 d l = some p) : p.2.length ≤ l.length := by
  have := close2_eq_some h
  subst this
  simp
  omega

theorem close1_eq_some {d : Char} : ∀ {l : List Char} {p},
    close1 d l = some p → l = p.1 ++ d :: p.2 := by
  intro l
  induction l with
  | nil => intro p h; simp [close1] at h
  | cons c rest ih =>
    intro p h
    unfold close1 at h
    split at h
    · rename_i hc
      injection h with h
      subst h
      simp [hc]
    · split at h
      · exact absurd h (by simp)
      · cases hp : close1 d rest with
        | none => rw [hp] at h; simp at h
        | some q =>
          rw [hp] at h
          simp at h
          have := ih hp
          subst this
          cases p with
          | mk a b =>
            simp at h
            obtain ⟨h1, h2⟩ := h
            simp [← h1, ← h2]

theorem close1_length {d : Char} {l : List Char} {p}
    (h : close1 d l = some p) : p.2.length ≤ l.length := by
  have := close1_eq_some h
  subst this
  simp
  omega

theorem length_dropWhile_le (p : α → Bool) (l : List α) :
    (l.dropWhile p).length ≤ l.length :=
  (List.dropWhile_sublist p).length_le

/-- Rules 1 and 2 of `_REPLACE_REGEXES`: `\n{2,}` -> `\n` and
` {2,}` -> ` `.  Replacing every maximal run of two or more copies of
`d` by a single `d` is realised by collapsing every run (a run of
length one is unchanged by the collapse, so the result agrees with the
regex, which only touches runs of length at least two). -/
def collapseRun (d : Char) : List Char → List Char
  | [] => []
  | c :: rest =>
    if c = d then d :: collapseRun d (rest.dropWhile (· = d))
    else c :: collapseRun d rest
termination_by l => l.length
decreasing_by
  · have := length_dropWhile_le (fun c => decide (c = d)) rest
    simp
    omega
  · simp

/-- Rule 3 of `_REPLACE_REGEXES`: `^\s+|\s+$` -> empty, no flags.
Without `re.MULTILINE`, `^` anchors at the start of the string only, so
the two alternatives remove the maximal leading whitespace run and the
maximal all-whitespace suffix. -/
def pyStrip (s : List Char) : List Char :=
  (((s.dropWhile isPySpace).reverse).dropWhile isPySpace).reverse

/-- Rule 4 of `_REPLACE_REGEXES`: `re.sub(r"\n*$", r"\n", s)`.
`$` matches at the end of the string and just before a final newline.
When `s` does not end with a newline the only match is the empty match
at the very end (replaced by one newline).  When `s` ends with a
newline, the leftmost match greedily consumes the whole trailing
newline run, and Python (3.7+) then also replaces the adjacent empty
match at the end, yielding exactly two trailing newlines.  In the
pipeline the input of this rule never ends with a newline (rule 3 has
removed trailing whitespace), so only the first branch is exercised. -/
def ensureTrailingNL (s : List Char) : List Char :=
  if s.reverse.head? = some '\n' then
    (s.reverse.dropWhile (· = '\n')).reverse ++ ['\n', '\n']
  else s ++ ['\n']

/-- Rules 5 and 8 of `_REPLACE_REGEXES`: `\*\*(.*?)\*\*` -> `<b>\1</b>`
and `\~\~(.*?)\~\~` -> `<s>\1</s>`.  Left-to-right scan; on a double
delimiter the lazy group takes the shortest newline-free span up to the
next double delimiter; when no close exists the scan advances one
character (the match attempt at this position fails). -/
def subInline2 (d g : Char) : List Char → List Char
  | [] => []
  | c :: rest =>
    if hm : c = d ∧ rest.head? = some d ∧ (close2 d rest.tail).isSome then
      '<' :: g :: '>' ::
        (((close2 d rest.tail).get hm.2.2).1 ++ '<' :: '/' :: g :: '>' ::
          subInline2 d g ((close2 d rest.tail).get hm.2.2).2)
    else c :: subInline2 d g rest
termination_by l => l.length
decreasing_by
  · have h1 := close2_length (Option.some_get hm.2.2).symm
    have h2 : rest.tail.length ≤ rest.length := by
      cases rest <;> simp
    simp
    omega
  · simp

/-- Rules 6 and 7 of `_REPLACE_REGEXES`: `\*(.*?)\*` -> `<i>\1</i>` and
`\_(.*?)\_` -> `<i>\1</i>`. -/
def subInline1 (d g : Char) : List Char → List Char
  | [] => []
  | c :: rest =>
    if hm : c = d ∧ (close1 d rest).isSome then
      '<' :: g :: '>' ::
        (((close1 d rest).get hm.2).1 ++ '<' :: '/' :: g :: '>' ::
          subInline1 d g ((close1 d rest).get hm.2).2)
    else c :: subInline1 d g rest
termination_by l => l.length
decreasing_by
  · have h1 := close1_length (Option.some_get hm.2).symm
    simp
    omega
  · simp

/-- Rule 9 of `_REPLACE_REGEXES`: `#\s*(.*)` -> `<h1>\1</h1>`, no
flags.  The pattern is not anchored: it fires at any `#`.  `\s*` is
greedy and `\s` also matches newlines, so the whitespace run after the
`#` may cross line breaks; `(.*)` then takes the rest of the line on
which the run stops (`.` does not match a newline).  Scanning resumes
after the consumed line remainder. -/
def subHeading : List Char → List Char
  | [] => []
  | c :: rest =>
    if c = '#' then
      '<' :: 'h' :: '1' :: '>' ::
        ((rest.dropWhile isPySpace).takeWhile (· ≠ '\n') ++
          '<' :: '/' :: 'h' :: '1' :: '>' ::
            subHeading ((rest.dropWhile isPySpace).dropWhile (· ≠ '\n')))
    else c :: subHeading rest
termination_by l => l.length
decreasing_by
  · have h1 := length_dropWhile_le isPySpace rest
    have h2 := length_dropWhile_le (fun x => !decide (x = '\n')) (rest.dropWhile isPySpace)
    simp
    omega
  · simp

/-- Scanner for the lazy part `(.*?)\n\/$` of the stanza rule (rule 10,
flags `re.MULTILINE | re.S`): returns the shortest interior followed by
the text after the closing `/`, where the close requires `\n/` and then
a line end (`$` in multi-line mode: end of string or just before a
newline).  With `re.S` the interior may contain anything, including
newlines. -/
def stanzaClose : List Char → Option (List Char × List Char)
  | [] => none
  | c :: rest =>
    if c = '\n' ∧ rest.head? = some '/' ∧
        (rest.tail = [] ∨ rest.tail.head? = some '\n') then
      some ([], rest.tail)
    else (stanzaClose rest).map fun p => (c :: p.1, p.2)

theorem stanzaClose_eq_some : ∀ {l : List Char} {p},
    stanzaClose l = some p → l = p.1 ++ '\n' :: '/' :: p.2 := by
  intro l
  induction l with
  | nil => intro p h; simp [stanzaClose] at h
  | cons c rest ih =>
    intro p h
    unfold stanzaClose at h
    split at h
    · rename_i hc
      obtain ⟨hcd, hh, _⟩ := hc
      injection h with h
      subst h
      cases rest with
      | nil => simp at hh
      | cons b t =>
        simp at hh
        simp [hcd, hh]
    · cases hp : stanzaClose rest with
      | none => rw [hp] at h; simp at h
      | some q =>
        rw [hp] at h
        simp at h
        have := ih hp
        subst this
        cases p with
        | mk a b =>
          simp at h
          obtain ⟨h1, h2⟩ := h
          simp [← h1, ← h2]

theorem stanzaClose_length {l : List Char} {p}
    (h : stanzaClose l = some p) : p.2.length ≤ l.length := by
  have := stanzaClose_eq_some h
  subst this
  simp
  omega

/-- Rule 10 of `_REPLACE_REGEXES`: `^\/\n(.*?)\n\/$` ->
`<div class=stanza>\n\1\n</div>`, flags `re.MULTILINE | re.S`.
Matches can only start at a line start (`^`); a failed line is copied
through to the next line start.  After a match, `$` is zero width, so
the newline following the closing `/` (if any) is not consumed and
scanning resumes at the next line. -/
def subStanza : List Char → List Char
  | [] => []
  | c :: rest =>
    if hm : c = '/' ∧ rest.head? = some '\n' ∧ (stanzaClose rest.tail).isSome then
      ('<' :: 'd' :: 'i' :: 'v' :: ' ' :: 'c' :: 'l' :: 'a' :: 's' :: 's' ::
        '=' :: 's' :: 't' :: 'a' :: 'n' :: 'z' :: 'a' :: '>' :: '\n' ::
          ((stanzaClose rest.tail).get hm.2.2).1) ++
        '\n' :: '<' :: '/' :: 'd' :: 'i' :: 'v' :: '>' ::
        (if ((stanzaClose rest.tail).get hm.2.2).2.head? = some '\n' then
          '\n' :: subStanza ((stanzaClose rest.tail).get hm.2.2).2.tail
        else ((stanzaClose rest.tail).get hm.2.2).2)
    else
      ((c :: rest).takeWhile (· ≠ '\n')) ++
        (if ((c :: rest).dropWhile (· ≠ '\n')).head? = some '\n' then
          '\n' :: subStanza ((c :: rest).dropWhile (· ≠ '\n')).tail
        else ((c :: rest).dropWhile (· ≠ '\n')))
termination_by l => l.length
decreasing_by
  · have h1 := stanzaClose_eq_some (Option.some_get hm.2.2).symm
    have h6 : rest.tail.length ≤ rest.length := by cases rest <;> simp
    have h4 : ((stanzaClose rest.tail).get hm.2.2).2.length ≤ rest.tail.length := by
      have := congrArg List.length h1
      simp only [List.length_append, List.length_cons] at this
      omega
    have h5 : ((stanzaClose rest.tail).get hm.2.2).2.tail.length ≤
        ((stanzaClose rest.tail).get hm.2.2).2.length := by
      cases ((stanzaClose rest.tail).get hm.2.2).2 <;> simp
    simp
    omega
  · have h4 := length_dropWhile_le (fun x => !decide (x = '\n')) (c :: rest)
    have h5 := List.length_tail ((c :: rest).dropWhile (· ≠ '\n'))
    simp at h4 h5 ⊢
    omega

/-- Rule 11 of `_REPLACE_REGEXES`: `^(?!<)(?!.*>\n)(.*?)\n` ->
`<p>\1</p>`, flag `re.MULTILINE`.  Matches start at line starts; the
first negative lookahead exempts a line starting with `<`, the second
exempts a line whose last character before its newline is `>`; `(.*?)`
cannot cross the newline, so the group is exactly the line content.
The replacement does not contain a newline, so the line's newline is
consumed.  A final line without a newline never matches. -/
def subParagraph : List Char → List Char
  | [] => []
  | c :: rest =>
    if ((c :: rest).dropWhile (· ≠ '\n')).head? = some '\n' then
      if ((c :: rest).takeWhile (· ≠ '\n')).head? = some '<' ∨
          ((c :: rest).takeWhile (· ≠ '\n')).getLast? = some '>' then
        (c :: rest).takeWhile (· ≠ '\n') ++ '\n' ::
          subParagraph ((c :: rest).dropWhile (· ≠ '\n')).tail
      else
        '<' :: 'p' :: '>' ::
          ((c :: rest).takeWhile (· ≠ '\n') ++ '<' :: '/' :: 'p' :: '>' ::
            subParagraph ((c :: rest).dropWhile (· ≠ '\n')).tail)
    else c :: rest
termination_by l => l.length
decreasing_by
  · have h4 := length_dropWhile_le (fun x => !decide (x = '\n')) (c :: rest)
    have h5 := List.length_tail ((c :: rest).dropWhile (· ≠ '\n'))
    simp at h4 h5 ⊢
    omega
  · have h4 := length_dropWhile_le (fun x => !decide (x = '\n')) (c :: rest)
    have h5 := List.length_tail ((c :: rest).dropWhile (· ≠ '\n'))
    simp at h4 h5 ⊢
    omega

/-- A metadata mapping: association pairs in insertion order; a
repeated key is resolved last-write-wins, as for a Python dict built
by successive assignment. -/
abbrev Meta := List (List Char × List Char)

/-- Python `dict.get`: the value of the last inserted pair with the
given key. -/
def lookupLast (md : Meta) (k : List Char) : Option (List Char) :=
  md.foldl (fun acc p => if p.1 = k then some p.2 else acc) none

/-- The placeholder substitution of `_merge_with_template`:
`re.sub(r"\$([A-Za-z0-9_\-]+)\$", lambda m: metadata.get(m.group(1),
m.group(0)), template)`.  At a `$`, the greedy class run must be
non-empty and be followed immediately by a closing `$`; otherwise no
match starts here and the scan advances one character.  A replaced
value is spliced in verbatim and scanning resumes after the closing
`$` (single pass). -/
def subTemplate (md : Meta) : List Char → List Char
  | [] => []
  | c :: rest =>
    if c = '$' ∧ (rest.drop (rest.takeWhile isIdentChar).length).head? = some '$' ∧
        ¬(rest.takeWhile isIdentChar).isEmpty then
      ((lookupLast md (rest.takeWhile isIdentChar)).getD
        ('$' :: (rest.takeWhile isIdentChar ++ ['$']))) ++
        subTemplate md (rest.drop (rest.takeWhile isIdentChar).length).tail
    else c :: subTemplate md rest
termination_by l => l.length
decreasing_by
  · have h1 : (rest.drop (rest.takeWhile isIdentChar).length).length ≤ rest.length := by
      simp
    have h2 := List.length_tail (rest.drop (rest.takeWhile isIdentChar).length)
    simp at h2 ⊢
    omega
  · simp

/-- `_merge_with_template`: the mapping is extended (destructively in
the source) with the reserved key `body` bound to the formatted
content, then the placeholders of the template are substituted. -/
def mergeWithTemplate (toMerge template : List Char) (md : Meta) : List Char :=
  subTemplate (md ++ [("body".toList, toMerge)]) template

/-- Scanner for `(.*?)\n---` under `re.DOTALL` in `_extract_metadata`:
returns the shortest prefix (the block interior) followed by the text
after the first occurrence of `\n---`, or `none` when no such
occurrence exists. -/
def findClose3 : List Char → Option (List Char × List Char)
  | [] => none
  | c :: rest =>
    if c = '\n' ∧ rest.take 3 = ['-', '-', '-'] then some ([], rest.drop 3)
    else (findClose3 rest).map fun p => (c :: p.1, p.2)

/-- The backtracking of `^---\s*\n(.*?)\n---` after the literal `---`:
the greedy `\s*` tries, from the longest whitespace prefix of `t`
downwards, every length `k` such that `t` has a newline at position
`k` (the `\n` after `\s*`), and keeps the first `k` whose remainder
contains a `\n---` close.  Returns the lazy group and the text after
the close. -/
def tryK (t : List Char) : Nat → Option (List Char × List Char)
  | 0 =>
    if t.head? = some '\n' then findClose3 (t.drop 1) else none
  | k + 1 =>
    if (t.drop (k + 1)).head? = some '\n' then
      match findClose3 (t.drop (k + 2)) with
      | some p => some p
      | none => tryK t k
    else tryK t k

/-- Pieces of one match attempt of
`^\s*([\w\-]+)\s*:\s*(.+?)\s*$` (flag `re.MULTILINE`) at a line start
of the block.  The leading `\s*` is greedy and also matches newlines,
so the key is the word/hyphen run at the first non-whitespace
character from here on (no shorter `\s*` can expose a key, since every
earlier position holds a whitespace character). -/
def kvKey (u : List Char) : List Char :=
  (u.dropWhile isPySpace).takeWhile isWordDash

/-- The text at the expected `:`: the whitespace after the key is
skipped, again possibly across newlines.  Neither a shorter key run
nor a shorter whitespace run can make the colon match, so the attempt
at this line start fails unless this text starts with `:`. -/
def kvAfterKey (u : List Char) : List Char :=
  ((u.dropWhile isPySpace).drop (kvKey u).length).dropWhile isPySpace

/-- The text after the colon. -/
def kvT (u : List Char) : List Char :=
  (kvAfterKey u).tail

/-- The text at the first non-whitespace character after the colon:
the greedy `\s*` between the colon and the lazy `(.+?)` skips
whitespace including newlines. -/
def kvT1 (u : List Char) : List Char :=
  (kvT u).dropWhile isPySpace

/-- The value group in the generic case (some non-whitespace character
follows the colon): `.` cannot cross a newline and `(.+?)` grows
lazily until the remainder of its line is all whitespace (then
`\s*$` succeeds), so the value runs from the first non-whitespace
character after the colon through the last non-whitespace character
of that character's line. -/
def kvValue (u : List Char) : List Char :=
  ((((kvT1 u).takeWhile (· ≠ '\n')).reverse).dropWhile isPySpace).reverse

/-- The block remainder from the newline ending the value's line. -/
def kvAfterLine (u : List Char) : List Char :=
  (kvT1 u).dropWhile (· ≠ '\n')

/-- The whitespace run consumed greedily by the trailing `\s*` after
the value (it may span blank lines). -/
def kvRun (u : List Char) : List Char :=
  (kvAfterLine u).takeWhile isPySpace

/-- The text after that whitespace run; empty exactly when the match
extends to the end of the block. -/
def kvZ (u : List Char) : List Char :=
  (kvAfterLine u).drop (kvRun u).length

/-- Where scanning resumes after a match that does not reach the end
of the block: the trailing `\s*` backtracks until `$` holds, so the
match ends just before the last newline of the consumed whitespace
run, and the next match can only start at the line start following
that newline (attempts at intermediate whitespace positions skip the
same whitespace and land at the same place). -/
def kvCont (u : List Char) : List Char :=
  ((kvRun u).reverse.takeWhile (· ≠ '\n')).reverse ++ kvZ u

theorem length_takeWhile_le (p : α → Bool) (l : List α) :
    (l.takeWhile p).length ≤ l.length := by
  have := congrArg List.length (List.takeWhile_append_dropWhile (p := p) (l := l))
  rw [List.length_append] at this
  omega

theorem length_takeWhile_lt_of_mem_not {p : Char → Bool} {l : List Char} {x : Char}
    (hx : x ∈ l) (hpx : ¬ p x = true) : (l.takeWhile p).length < l.length := by
  have hdw : l.dropWhile p ≠ [] := by
    intro h
    rw [List.dropWhile_eq_nil_iff] at h
    exact hpx (h x hx)
  have hsum := congrArg List.length (List.takeWhile_append_dropWhile (p := p) (l := l))
  rw [List.length_append] at hsum
  have hpos : 0 < (l.dropWhile p).length := List.length_pos.mpr hdw
  omega

theorem kvAfterLine_length_le (u : List Char) : (kvAfterLine u).length ≤ u.length := by
  have e1 : (kvAfterLine u).length ≤ (kvT1 u).length := by
    unfold kvAfterLine
    exact length_dropWhile_le _ _
  have e2 : (kvT1 u).length ≤ (kvT u).length := by
    unfold kvT1
    exact length_dropWhile_le _ _
  have e3 : (kvT u).length ≤ (kvAfterKey u).length := by
    unfold kvT
    cases kvAfterKey u <;> simp
  have e4 : (kvAfterKey u).length ≤ (u.dropWhile isPySpace).length := by
    unfold kvAfterKey
    refine le_trans (length_dropWhile_le _ _) ?_
    rw [List.length_drop]
    omega
  have e5 : (u.dropWhile isPySpace).length ≤ u.length := length_dropWhile_le _ _
  omega

theorem tail_dropWhile_nl_length_lt (c0 : Char) (u0 : List Char) :
    ((((c0 :: u0).dropWhile (· ≠ '\n'))).tail).length < (c0 :: u0).length := by
  have h4 := length_dropWhile_le (fun x => decide (x ≠ '\n')) (c0 :: u0)
  have h5 := List.length_tail ((c0 :: u0).dropWhile (· ≠ '\n'))
  simp at h4 h5 ⊢
  omega

theorem kvCont_length_lt {u : List Char} (hz : kvZ u ≠ []) :
    (kvCont u).length < u.length := by
  have hAL : kvAfterLine u ≠ [] := by
    intro h
    apply hz
    unfold kvZ kvRun
    rw [h]
    simp
  have hAL2 : (kvT1 u).dropWhile (· ≠ '\n') ≠ [] := hAL
  have hhead : ((kvT1 u).dropWhile (· ≠ '\n')).head hAL2 = '\n' := by
    have := List.head_dropWhile_not (fun x => decide (x ≠ '\n')) (kvT1 u) hAL2
    simpa using this
  have hcons := List.head_cons_tail ((kvT1 u).dropWhile (· ≠ '\n')) hAL2
  rw [hhead] at hcons
  have hmem : '\n' ∈ kvRun u := by
    unfold kvRun kvAfterLine
    rw [← hcons, List.takeWhile_cons]
    simp [isPySpace]
  have hmemrev : '\n' ∈ (kvRun u).reverse := by simpa using hmem
  have hseg : ((kvRun u).reverse.takeWhile (· ≠ '\n')).length < (kvRun u).length := by
    have := length_takeWhile_lt_of_mem_not
      (p := fun x => decide (x ≠ '\n')) hmemrev (by simp)
    simpa using this
  have hZlen : (kvZ u).length = (kvAfterLine u).length - (kvRun u).length := by
    unfold kvZ
    simp
  have hrunle : (kvRun u).length ≤ (kvAfterLine u).length := by
    unfold kvRun
    exact length_takeWhile_le _ _
  have hALle := kvAfterLine_length_le u
  unfold kvCont
  rw [List.length_append, List.length_reverse]
  omega

/-- `re.findall(r"^\s*([\w\-]+)\s*:\s*(.+?)\s*$", block, re.MULTILINE)`
as a left-to-right scan over the block, called at a line start.  An
attempt reads the key and the colon across any whitespace (newlines
included).  After the colon: if some non-whitespace character follows
(possibly on a later line), the match always completes with `kvValue`
and scanning resumes at `kvCont` (or the block is exhausted when
`kvZ` is empty); if only whitespace remains, the greedy run before
`(.+?)` backtracks and the value is the last character of the block
that is whitespace but not a newline -- when every remaining
character is a newline the attempt fails, and so does every later
attempt inside the remaining all-whitespace text.  A failed attempt
moves to the next line start. -/
def pyFindKV : List Char → Meta
  | [] => []
  | c0 :: u0 =>
    if kvKey (c0 :: u0) ≠ [] ∧ (kvAfterKey (c0 :: u0)).head? = some ':' then
      if kvT1 (c0 :: u0) = [] then
        match ((kvT (c0 :: u0)).filter (· ≠ '\n')).getLast? with
        | some c => [(kvKey (c0 :: u0), [c])]
        | none => []
      else
        if hz : kvZ (c0 :: u0) = [] then [(kvKey (c0 :: u0), kvValue (c0 :: u0))]
        else (kvKey (c0 :: u0), kvValue (c0 :: u0)) :: pyFindKV (kvCont (c0 :: u0))
    else
      if ((c0 :: u0).dropWhile (· ≠ '\n')).head? = some '\n' then
        pyFindKV ((c0 :: u0).dropWhile (· ≠ '\n')).tail
      else []
termination_by l => l.length
decreasing_by
  · exact kvCont_length_lt hz
  · apply tail_dropWhile_nl_length_lt

/-- `dict(re.findall(...))` over the block interior: the pairs of the
multi-line scan, in match order; the later `dict` and `get` are the
last-write-wins lookup `lookupLast`. -/
def parseMeta (block : List Char) : Meta :=
  pyFindKV block

/-- `_extract_metadata`: search `^---\s*\n(.*?)\n---` (flag
`re.DOTALL`, `^` anchored at the start of the string since
`re.MULTILINE` is absent).  On a match, the matched span (which starts
at position 0) is removed and the interior parsed; otherwise the
mapping is empty and the content is returned unchanged. -/
def extractMetadata (content : List Char) : Meta × List Char :=
  if content.take 3 = ['-', '-', '-'] then
    match tryK (content.drop 3) (((content.drop 3).takeWhile isPySpace).length) with
    | some p => (parseMeta p.1, p.2)
    | none => ([], content)
  else ([], content)

/-- Rules 1-10 of `_replace_file_marks`, in source order: collapse
newline runs, collapse space runs, strip, ensure trailing newline,
bold, italic (asterisk), italic (underscore), strikethrough, heading,
stanza. -/
def pre11 (s : List Char) : List Char :=
  subStanza (subHeading (subInline2 '~' 's' (subInline1 '_' 'i'
    (subInline1 '*' 'i' (subInline2 '*' 'b' (ensureTrailingNL (pyStrip
      (collapseRun ' ' (collapseRun '\n' s)))))))))

/-- `_replace_file_marks`: all eleven rules; rule 11 (paragraph
wrapping) runs last. -/
def formatBody (s : List Char) : List Char :=
  subParagraph (pre11 s)

/-! ### Generic scanning helpers -/

theorem takeWhile_append_cons {p : α → Bool} {L : List α} {c : α} {rest : List α}
    (hL : ∀ x ∈ L, p x) (hc : ¬ p c) : (L ++ c :: rest).takeWhile p = L := by
  induction L with
  | nil => simp [List.takeWhile_cons, hc]
  | cons a L ih =>
    have ha : p a := hL a (by simp)
    simp only [List.cons_append, List.takeWhile_cons, ha]
    simp [ih fun x hx => hL x (by simp [hx])]

theorem dropWhile_append_cons {p : α → Bool} {L : List α} {c : α} {rest : List α}
    (hL : ∀ x ∈ L, p x) (hc : ¬ p c) : (L ++ c :: rest).dropWhile p = c :: rest := by
  induction L with
  | nil => simp [List.dropWhile_cons, hc]
  | cons a L ih =>
    have ha : p a := hL a (by simp)
    simp only [List.cons_append, List.dropWhile_cons, ha]
    simp [ih fun x hx => hL x (by simp [hx])]

/-! ### Behaviour of the template substitution on a decomposed template -/

theorem subTemplate_cons_other {md : Meta} {c : Char} {rest : List Char}
    (hc : c ≠ '$') : subTemplate md (c :: rest) = c :: subTemplate md rest := by
  rw [subTemplate]
  simp [hc]

/-- The placeholder `$k$` at the head of the template is resolved by a
single lookup; the tail is processed independently of the
replacement. -/
theorem subTemplate_token {md : Meta} {k post : List Char}
    (hk : k ≠ []) (hident : ∀ x ∈ k, isIdentChar x) :
    subTemplate md ('$' :: (k ++ '$' :: post)) =
      ((lookupLast md k).getD ('$' :: (k ++ ['$']))) ++ subTemplate md post := by
  have hdollar : ¬ (isIdentChar '$' = true) := by decide
  have htake : (k ++ '$' :: post).takeWhile isIdentChar = k :=
    takeWhile_append_cons hident hdollar
  have hdrop : (k ++ '$' :: post).drop k.length = '$' :: post := by
    have := List.drop_left k ('$' :: post)
    simpa using this
  rw [subTemplate]
  rw [if_pos]
  · rw [htake, hdrop]
    simp
  · refine ⟨rfl, ?_, ?_⟩
    · rw [htake, hdrop]; rfl
    · rw [htake]
      simp [hk]

/-- Scanning is position-by-position: a `$`-free prefix of the
template is copied through unchanged. -/
theorem subTemplate_append_free {md : Meta} {pre t : List Char}
    (hpre : '$' ∉ pre) : subTemplate md (pre ++ t) = pre ++ subTemplate md t := by
  induction pre with
  | nil => simp
  | cons c pre ih =>
    have hc : c ≠ '$' := by
      intro h
      exact hpre (by simp [h])
    rw [List.cons_append, subTemplate_cons_other hc,
      ih (fun h => hpre (by simp [h]))]
    simp

/-! ### Behaviour of the paragraph rule on a decomposed body -/

theorem subParagraph_nil : subParagraph [] = [] := by
  rw [subParagraph]

/-- One step of rule 11 on the leading newline-terminated line `L`:
`L` is exempt exactly when it starts with `<` or ends with `>`;
otherwise it is wrapped (and its newline consumed). -/
theorem subParagraph_line {L rest : List Char} (hL : '\n' ∉ L) :
    subParagraph (L ++ '\n' :: rest) =
      if L.head? = some '<' ∨ L.getLast? = some '>' then
        L ++ '\n' :: subParagraph rest
      else '<' :: 'p' :: '>' :: (L ++ '<' :: '/' :: 'p' :: '>' :: subParagraph rest) := by
  have hnl : ¬ ((fun x => decide (x ≠ '\n')) '\n' = true) := by simp
  have hLp : ∀ x ∈ L, (fun x => decide (x ≠ '\n')) x = true := by
    intro x hx
    simp
    intro hx2
    exact hL (hx2 ▸ hx)
  have htake : (L ++ '\n' :: rest).takeWhile (· ≠ '\n') = L :=
    takeWhile_append_cons hLp hnl
  have hdrop : (L ++ '\n' :: rest).dropWhile (· ≠ '\n') = '\n' :: rest :=
    dropWhile_append_cons hLp hnl
  cases hL2 : L with
  | nil =>
    simp only [List.nil_append]
    rw [subParagraph]
    simp
  | cons c L2 =>
    subst hL2
    rw [List.cons_append, subParagraph]
    rw [show (c :: (L2 ++ '\n' :: rest)) = ((c :: L2) ++ '\n' :: rest) by rfl]
    rw [htake, hdrop]
    simp


/-- A non-empty list ending in a newline splits as first line,
newline, remainder (itself newline-terminated or empty). -/
theorem split_first_line {pre : List Char} (h : pre.getLast? = some '\n') :
    ∃ L pre2, pre = L ++ '\n' :: pre2 ∧ '\n' ∉ L ∧
      (pre2 = [] ∨ pre2.getLast? = some '\n') := by
  have hne : pre ≠ [] := by
    intro hx
    rw [hx] at h
    simp at h
  have hmem : '\n' ∈ pre := by
    have hg := List.getLast?_eq_getLast pre hne
    rw [hg] at h
    injection h with h2
    rw [← h2]
    exact List.getLast_mem hne
  have hdw : pre.dropWhile (· ≠ '\n') ≠ [] := by
    intro hx
    rw [List.dropWhile_eq_nil_iff] at hx
    have := hx '\n' hmem
    simp at this
  have hcons := List.head_cons_tail (pre.dropWhile (· ≠ '\n')) hdw
  have hhead : (pre.dropWhile (· ≠ '\n')).head hdw = '\n' := by
    have := List.head_dropWhile_not (fun x => decide (x ≠ '\n')) pre hdw
    simpa using this
  rw [hhead] at hcons
  refine ⟨pre.takeWhile (· ≠ '\n'), (pre.dropWhile (· ≠ '\n')).tail, ?_, ?_, ?_⟩
  · conv_lhs => rw [← List.takeWhile_append_dropWhile (p := (· ≠ '\n')) (l := pre)]
    exact congrArg (pre.takeWhile (· ≠ '\n') ++ ·) hcons.symm
  · intro hx
    have := List.mem_takeWhile_imp hx
    simp at this
  · rcases hq : (pre.dropWhile (· ≠ '\n')).tail with _ | ⟨c, q⟩
    · exact Or.inl rfl
    · right
      have hpre : pre = pre.takeWhile (· ≠ '\n') ++ '\n' :: (c :: q) := by
        conv_lhs => rw [← List.takeWhile_append_dropWhile (p := (· ≠ '\n')) (l := pre)]
        rw [hq] at hcons
        exact congrArg (pre.takeWhile (· ≠ '\n') ++ ·) hcons.symm
      rw [hpre] at h
      rw [List.getLast?_append] at h
      simpa using h

/-- Rule 11 treats a body made of whole (newline-terminated) lines
followed by further text compositionally. -/
theorem subParagraph_append {pre t : List Char}
    (hpre : pre = [] ∨ pre.getLast? = some '\n') :
    subParagraph (pre ++ t) = subParagraph pre ++ subParagraph t := by
  suffices H : ∀ n pre2 t2, List.length pre2 = n →
      (pre2 = [] ∨ pre2.getLast? = some '\n') →
      subParagraph (pre2 ++ t2) = subParagraph pre2 ++ subParagraph t2 from
    H pre.length pre t rfl hpre
  intro n
  induction n using Nat.strong_induction_on with
  | _ n ih =>
    intro pre2 t2 hn hpre2
    cases hpre2 with
    | inl h => subst h; simp [subParagraph_nil]
    | inr h =>
      obtain ⟨L, pre3, hsplit, hL, hpre3⟩ := split_first_line h
      subst hsplit
      have hlen : pre3.length < n := by
        rw [← hn]
        simp
        omega
      rw [List.append_assoc, List.cons_append]
      rw [subParagraph_line hL, subParagraph_line hL]
      have hrec := ih pre3.length hlen pre3 t2 rfl hpre3
      split
      · rw [hrec]
        simp
      · rw [hrec]
        simp

/-! ### Behaviour of the heading rule on a decomposed body -/

theorem subHeading_cons_other {c : Char} {rest : List Char} (hc : c ≠ '#') :
    subHeading (c :: rest) = c :: subHeading rest := by
  rw [subHeading]
  simp [hc]

theorem subHeading_hash {rest : List Char} :
    subHeading ('#' :: rest) =
      '<' :: 'h' :: '1' :: '>' ::
        ((rest.dropWhile isPySpace).takeWhile (· ≠ '\n') ++
          '<' :: '/' :: 'h' :: '1' :: '>' ::
            subHeading ((rest.dropWhile isPySpace).dropWhile (· ≠ '\n'))) := by
  rw [subHeading]
  simp

/-- The heading substitution fires at the first `#` of the body: the
prefix before it is copied unchanged, the whitespace run after the `#`
(possibly containing newlines) is dropped, the remainder of the line
on which that run ends becomes the heading content, and scanning
continues at that line's newline. -/
theorem subHeading_split {pre rest : List Char} (hpre : '#' ∉ pre) :
    subHeading (pre ++ '#' :: rest) =
      pre ++ '<' :: 'h' :: '1' :: '>' ::
        ((rest.dropWhile isPySpace).takeWhile (· ≠ '\n') ++
          '<' :: '/' :: 'h' :: '1' :: '>' ::
            subHeading ((rest.dropWhile isPySpace).dropWhile (· ≠ '\n'))) := by
  induction pre with
  | nil => simp [subHeading_hash]
  | cons c pre ih =>
    have hc : c ≠ '#' := by
      intro h
      exact hpre (by simp [h])
    rw [List.cons_append, subHeading_cons_other hc,
      ih (fun h => hpre (by simp [h]))]
    simp

/-! ### Behaviour of the metadata search -/

theorem findClose3_cons_none {c : Char} {rest : List Char}
    (h : findClose3 (c :: rest) = none) : findClose3 rest = none := by
  rw [findClose3] at h
  split at h
  · simp at h
  · cases hp : findClose3 rest with
    | none => rfl
    | some q => rw [hp] at h; simp at h

theorem findClose3_drop_none : ∀ {s : List Char}, findClose3 s = none →
    ∀ n, findClose3 (s.drop n) = none := by
  intro s
  induction s with
  | nil =>
    intro h n
    rw [List.drop_nil]
    exact h
  | cons c rest ih =>
    intro h n
    cases n with
    | zero => exact h
    | succ n =>
      rw [List.drop_succ_cons]
      exact ih (findClose3_cons_none h) n

theorem tryK_none_of_findClose3_none {t : List Char}
    (h : ∀ n, findClose3 (t.drop n) = none) : ∀ k, tryK t k = none := by
  intro k
  induction k with
  | zero =>
    rw [tryK]
    split
    · exact h 1
    · rfl
  | succ k ih =>
    rw [tryK]
    split
    · rw [h (k + 2)]
      exact ih
    · exact ih

/-- If the text decomposes around an occurrence of `\n---`, the close
scanner succeeds. -/
theorem findClose3_isSome_of_append : ∀ (a b : List Char),
    (findClose3 (a ++ '\n' :: '-' :: '-' :: '-' :: b)).isSome := by
  intro a
  induction a with
  | nil =>
    intro b
    simp only [List.nil_append]
    rw [findClose3]
    simp
  | cons c a ih =>
    intro b
    rw [List.cons_append, findClose3]
    split
    · simp
    · simp only [Option.isSome_map']
      exact ih b

/-- The close scanner splits its input at an occurrence of `\n---`. -/
theorem findClose3_eq_some : ∀ {l : List Char} {p},
    findClose3 l = some p → l = p.1 ++ '\n' :: '-' :: '-' :: '-' :: p.2 := by
  intro l
  induction l with
  | nil => intro p h; simp [findClose3] at h
  | cons c rest ih =>
    intro p h
    rw [findClose3] at h
    split at h
    · rename_i hc
      obtain ⟨hc1, hc2⟩ := hc
      injection h with h
      subst h
      subst hc1
      simp only [List.nil_append]
      have : rest = ['-', '-', '-'] ++ rest.drop 3 := by
        conv_lhs => rw [← List.take_append_drop 3 rest]
        rw [hc2]
      rw [this]
      simp
    · cases hp : findClose3 rest with
      | none => rw [hp] at h; simp at h
      | some q =>
        rw [hp] at h
        simp at h
        have := ih hp
        subst this
        cases p with
        | mk x y =>
          simp at h
          obtain ⟨h1, h2⟩ := h
          simp [← h1, ← h2]

/-- If some `k` at or below the start index admits a newline and a
following close, `tryK` succeeds. -/
theorem tryK_isSome_of_candidate {t : List Char} {k0 : Nat}
    (hk : ∃ k ≤ k0, (t.drop k).head? = some '\n' ∧
      (findClose3 (t.drop (k + 1))).isSome) :
    (tryK t k0).isSome := by
  induction k0 with
  | zero =>
    obtain ⟨k, hk0, hnl, hsome⟩ := hk
    interval_cases k
    rw [List.drop_zero] at hnl
    rw [tryK]
    rw [if_pos hnl]
    simpa using hsome
  | succ n ih =>
    obtain ⟨k, hk0, hnl, hsome⟩ := hk
    rw [tryK]
    rcases Nat.lt_or_ge k (n + 1) with hlt | hge
    · split
      · cases hq : findClose3 (t.drop (n + 2)) with
        | some p => simp
        | none =>
          simp only [hq]
          exact ih ⟨k, by omega, hnl, hsome⟩
      · exact ih ⟨k, by omega, hnl, hsome⟩
    · have hkeq : k = n + 1 := by omega
      subst hkeq
      rw [if_pos hnl]
      cases hq : findClose3 (t.drop (n + 2)) with
      | some p => simp
      | none =>
        rw [hq] at hsome
        simp at hsome

/-- A successful `tryK` returns an interior and a tail that embed back
into the searched text: the tail is what follows a `\n---` close. -/
theorem tryK_eq_some : ∀ {t : List Char} {k0 : Nat} {p},
    tryK t k0 = some p → ∃ k, (t.drop k) = '\n' :: (p.1 ++ '\n' :: '-' :: '-' :: '-' :: p.2) ∨
      (t.drop (k + 1)) = p.1 ++ '\n' :: '-' :: '-' :: '-' :: p.2 := by
  intro t k0
  induction k0 with
  | zero =>
    intro p h
    rw [tryK] at h
    split at h
    · exact ⟨0, Or.inr (by simpa using findClose3_eq_some h)⟩
    · simp at h
  | succ n ih =>
    intro p h
    rw [tryK] at h
    split at h
    · cases hq : findClose3 (t.drop (n + 2)) with
      | some q =>
        rw [hq] at h
        simp at h
        subst h
        exact ⟨n + 1, Or.inr (by simpa using findClose3_eq_some hq)⟩
      | none =>
        rw [hq] at h
        exact ih h
    · exact ih h

/-! ### Whitespace-only bodies -/

theorem collapseRun_space {d : Char} : ∀ {s : List Char},
    (∀ c ∈ s, isPySpace c = true) → ∀ c ∈ collapseRun d s, isPySpace c = true := by
  suffices H : ∀ n s, List.length s = n → (∀ c ∈ s, isPySpace c = true) →
      ∀ c ∈ collapseRun d s, isPySpace c = true from fun {s} h => H s.length s rfl h
  intro n
  induction n using Nat.strong_induction_on with
  | _ n ih =>
    intro s hn hs
    cases s with
    | nil =>
      intro c hc
      rw [collapseRun] at hc
      simp at hc
    | cons a rest =>
      intro c hc
      rw [collapseRun] at hc
      split at hc
      · rename_i had
        rw [List.mem_cons] at hc
        rcases hc with hc | hc
        · rw [hc, ← had]
          exact hs a (by simp)
        · have hlen : (rest.dropWhile (· = d)).length < n := by
            have := length_dropWhile_le (fun c => decide (c = d)) rest
            rw [← hn]
            simp
            omega
          refine ih _ hlen _ rfl ?_ c hc
          intro x hx
          exact hs x (by
            have := (List.dropWhile_sublist (fun c => decide (c = d))).subset hx
            simp [this])
      · rw [List.mem_cons] at hc
        rcases hc with hc | hc
        · rw [hc]
          exact hs a (by simp)
        · have hlen : rest.length < n := by rw [← hn]; simp
          refine ih _ hlen _ rfl ?_ c hc
          intro x hx
          exact hs x (by simp [hx])

theorem pyStrip_all_space {s : List Char} (h : ∀ c ∈ s, isPySpace c = true) :
    pyStrip s = [] := by
  unfold pyStrip
  rw [List.dropWhile_eq_nil_iff.mpr h]
  simp

/-! ## Claims -/

/-- Claim C1, counterexample.  The claim states that in rule 11 the
only exemption from paragraph wrapping is a line starting with `<`.
The body `x~~y~~` reaches rule 11 as the single line `x<s>y</s>`
(strikethrough output), which does not start with `<`, yet
`format_body` leaves it unwrapped: the second lookahead `(?!.*>\n)` of
the pattern `^(?!<)(?!.*>\n)(.*?)\n` also exempts any line ending in
`>`, so the output is `x<s>y</s>\n` and not `<p>x<s>y</s></p>`. -/
theorem claim_C1_counterexample :
    pre11 "x~~y~~".toList = "x<s>y</s>\n".toList ∧
    ("x<s>y</s>".toList).head? ≠ some '<' ∧
    formatBody "x~~y~~".toList = "x<s>y</s>\n".toList ∧
    formatBody "x~~y~~".toList ≠ "<p>x<s>y</s></p>".toList := by
  refine ⟨?_, by decide, ?_, ?_⟩
  · simp +decide [pre11, collapseRun, pyStrip, ensureTrailingNL, subInline2,
      subInline1, subHeading, subStanza, close2, close1, isPySpace]
  · simp +decide [formatBody, pre11, collapseRun, pyStrip, ensureTrailingNL, subInline2,
      subInline1, subHeading, subStanza, subParagraph, close2, close1, isPySpace]
  · simp +decide [formatBody, pre11, collapseRun, pyStrip, ensureTrailingNL, subInline2,
      subInline1, subHeading, subStanza, subParagraph, close2, close1, isPySpace]

/-- Claim C1, amended.  Rule 11 wraps a newline-terminated line `L`
exactly when `L` neither starts with `<` nor ends with `>`; a line
starting with `<` or ending with `>` is left untouched (the line fails
one of the two negative lookaheads). -/
theorem claim_C1 (L rest : List Char) (hL : '\n' ∉ L) :
    subParagraph (L ++ '\n' :: rest) =
      if L.head? = some '<' ∨ L.getLast? = some '>' then
        L ++ '\n' :: subParagraph rest
      else '<' :: 'p' :: '>' :: (L ++ '<' :: '/' :: 'p' :: '>' :: subParagraph rest) :=
  subParagraph_line hL

/-- Witness for claim C1 at concrete inputs: the line `ab` is wrapped,
the line `a>` (not starting with `<`) is not. -/
theorem claim_C1_witness :
    subParagraph ("ab".toList ++ '\n' :: []) =
      '<' :: 'p' :: '>' :: ("ab".toList ++ '<' :: '/' :: 'p' :: '>' :: subParagraph []) ∧
    subParagraph ("a>".toList ++ '\n' :: []) = "a>".toList ++ '\n' :: subParagraph [] := by
  constructor
  · rw [claim_C1 "ab".toList [] (by decide)]
    rw [if_neg (by decide)]
  · rw [claim_C1 "a>".toList [] (by decide)]
    rw [if_pos (by decide)]

/-- Claim C4.  `format_body("/\nline1\nline2\n/")` produces the stanza
wrapper with both interior lines paragraph-wrapped inside it. -/
theorem claim_C4 :
    formatBody "/\nline1\nline2\n/".toList =
      "<div class=stanza>\n".toList ++ "<p>line1</p>".toList ++
        "<p>line2</p>".toList ++ "</div>\n".toList := by
  simp +decide [formatBody, pre11, collapseRun, pyStrip, ensureTrailingNL, subInline2,
    subInline1, subHeading, subStanza, subParagraph, close2, close1, stanzaClose, isPySpace]

/-- Claim C5.  The three core functions are total Lean functions
(termination certified by the definitions): every input yields a
result, and no failure path exists in the model. -/
theorem claim_C5 (content body template : List Char) (md : Meta) :
    (∃ r, extractMetadata content = r) ∧ (∃ o, formatBody body = o) ∧
      (∃ m, mergeWithTemplate body template md = m) :=
  ⟨⟨_, rfl⟩, ⟨_, rfl⟩, ⟨_, rfl⟩⟩

/-- Claim C9.  On the empty body and on any body made only of
whitespace, rules 1-3 empty the body, rule 4 appends one newline, and
rule 11 wraps the resulting empty line, so `format_body` returns
exactly `<p></p>`. -/
theorem claim_C9 (s : List Char) (h : ∀ c ∈ s, isPySpace c = true) :
    formatBody s = "<p></p>".toList := by
  have h1 : ∀ c ∈ collapseRun '\n' s, isPySpace c = true := collapseRun_space h
  have h2 : ∀ c ∈ collapseRun ' ' (collapseRun '\n' s), isPySpace c = true :=
    collapseRun_space h1
  have h3 : pyStrip (collapseRun ' ' (collapseRun '\n' s)) = [] := pyStrip_all_space h2
  unfold formatBody pre11
  rw [h3]
  simp +decide [ensureTrailingNL, subInline2, subInline1, subHeading, subStanza,
    subParagraph, close2, close1, isPySpace]

/-- Witness for claim C9: the empty body and a whitespace-only body
both yield exactly one empty paragraph. -/
theorem claim_C9_witness :
    formatBody [] = "<p></p>".toList ∧
      formatBody " \t\n ".toList = "<p></p>".toList :=
  ⟨claim_C9 [] (by decide), claim_C9 " \t\n ".toList (by decide)⟩

/-- Claim C10, counterexample.  The claim states that for a line
containing `#`, everything from the first `#` through the end of that
line is replaced, the heading wrapping the text after the `#` on that
line.  But `\s` in `#\s*(.*)` also matches newlines: on the body
`a #\nb\n` (a line ending in `#` followed by line `b`), the whitespace
run after `#` crosses the newline and the heading captures the next
line -- the result is `a <h1>b</h1>\n`, not the `a <h1></h1>\nb\n`
required by the claim. -/
theorem claim_C10_counterexample :
    subHeading "a #\nb\n".toList = "a <h1>b</h1>\n".toList ∧
    "a <h1>b</h1>\n".toList ≠ "a <h1></h1>\nb\n".toList := by
  constructor
  · simp +decide [subHeading, isPySpace]
  · decide

/-- Claim C10, amended.  The heading rule is not anchored to line
starts: at the first `#` of the body, everything from the `#` through
the end of the line on which the post-`#` whitespace run ends (the run
may cross newlines) is replaced by `<h1>c</h1>` where `c` is that
line remainder; the prefix before the `#` stays in place and scanning
continues after the consumed span. -/
theorem claim_C10 (pre rest : List Char) (hpre : '#' ∉ pre) :
    subHeading (pre ++ '#' :: rest) =
      pre ++ '<' :: 'h' :: '1' :: '>' ::
        ((rest.dropWhile isPySpace).takeWhile (· ≠ '\n') ++
          '<' :: '/' :: 'h' :: '1' :: '>' ::
            subHeading ((rest.dropWhile isPySpace).dropWhile (· ≠ '\n'))) :=
  subHeading_split hpre

/-- Witness for claim C10 at the claim's own example: `a # b` becomes
`a <h1>b</h1>`. -/
theorem claim_C10_witness :
    subHeading ("a ".toList ++ '#' :: " b".toList) = "a <h1>b</h1>".toList := by
  rw [claim_C10 "a ".toList " b".toList (by decide)]
  simp +decide [subHeading, isPySpace]

/-- Claim C6.  After the mapping is extended with the reserved key
`body`, each non-overlapping `$identifier$` token is replaced by the
mapping's value under exact key match when one exists, and is left
verbatim, delimiters included, when the identifier has no entry; the
prefix before the token and the remainder after it are processed
independently (`getD` selects the value on a hit and the literal token
on a miss). -/
theorem claim_C6 (md : Meta) (body pre k post : List Char)
    (hpre : '$' ∉ pre) (hk : k ≠ []) (hident : ∀ x ∈ k, isIdentChar x = true) :
    mergeWithTemplate body (pre ++ '$' :: (k ++ '$' :: post)) md =
      pre ++ (((lookupLast (md ++ [("body".toList, body)]) k).getD
        ('$' :: (k ++ ['$']))) ++ subTemplate (md ++ [("body".toList, body)]) post) := by
  unfold mergeWithTemplate
  rw [subTemplate_append_free hpre, subTemplate_token hk hident]

/-- Witness for claim C6: a resolved placeholder and an unknown
placeholder in the same template. -/
theorem claim_C6_witness :
    mergeWithTemplate "B".toList ("Hello ".toList ++ '$' :: ("name".toList ++ '$' :: " $missing$".toList))
        [("name".toList, "World".toList)] =
      "Hello World $missing$".toList := by
  rw [claim_C6 [("name".toList, "World".toList)] "B".toList "Hello ".toList "name".toList
    " $missing$".toList (by decide) (by decide) (by decide)]
  simp +decide [lookupLast, subTemplate, isIdentChar]

/-- Claim C7.  Substitution is single pass: a substituted value is
spliced in verbatim and never re-scanned, so a value that is itself a
`$key$`-shaped text appears literally in the output even when `key`
has an entry in the mapping. -/
theorem claim_C7 (md : Meta) (body pre post k k2 w : List Char)
    (hpre : '$' ∉ pre) (hk : k ≠ []) (hident : ∀ x ∈ k, isIdentChar x = true)
    (hval : lookupLast (md ++ [("body".toList, body)]) k = some ('$' :: (k2 ++ ['$'])))
    (hk2 : lookupLast (md ++ [("body".toList, body)]) k2 = some w) :
    mergeWithTemplate body (pre ++ '$' :: (k ++ '$' :: post)) md =
      pre ++ ('$' :: (k2 ++ ['$'])) ++ subTemplate (md ++ [("body".toList, body)]) post := by
  unfold mergeWithTemplate
  rw [subTemplate_append_free hpre, subTemplate_token hk hident, hval]
  simp

/-- Witness for claim C7: the value of `a` is the text `$b$` and `b`
is itself mapped, yet the merged output contains the literal `$b$`,
not the value of `b`. -/
theorem claim_C7_witness :
    mergeWithTemplate "B".toList ([] ++ '$' :: ("a".toList ++ '$' :: []))
        [("a".toList, "$b$".toList), ("b".toList, "X".toList)] = "$b$".toList := by
  rw [claim_C7 [("a".toList, "$b$".toList), ("b".toList, "X".toList)] "B".toList []
    [] "a".toList "b".toList "X".toList (by decide) (by decide) (by decide)
    (by decide) (by decide)]
  simp +decide [subTemplate]

/-- Claim C8.  Re-running `format_body` does not double-wrap: if the
input of the second run's paragraph stage decomposes at a line
boundary into a line beginning with `<`, that line passes through the
paragraph rule untouched (its newline kept, no `<p>` added), by the
"don't wrap lines starting with `<`" lookahead.  Full idempotence is
not claimed. -/
theorem claim_C8 (x pre L rest : List Char)
    (h1 : pre11 (formatBody x) = pre ++ ('<' :: L) ++ '\n' :: rest)
    (h2 : pre = [] ∨ pre.getLast? = some '\n')
    (h3 : '\n' ∉ L) :
    formatBody (formatBody x) =
      subParagraph pre ++ ('<' :: L) ++ '\n' :: subParagraph rest := by
  show subParagraph (pre11 (formatBody x)) = _
  rw [h1, List.append_assoc, subParagraph_append h2]
  have hL : '\n' ∉ '<' :: L := by
    intro h
    rw [List.mem_cons] at h
    rcases h with h | h
    · exact absurd h.symm (by decide)
    · exact h3 h
  rw [subParagraph_line hL]
  rw [if_pos (Or.inl (by simp))]
  simp

/-- Witness for claim C8 at `x = "# T"`: the second run's paragraph
stage sees exactly the already-tagged line `<h1>T</h1>` and leaves it
unwrapped. -/
theorem claim_C8_witness :
    pre11 (formatBody "# T".toList) = [] ++ ('<' :: "h1>T</h1>".toList) ++ '\n' :: [] ∧
    formatBody (formatBody "# T".toList) =
      subParagraph [] ++ ('<' :: "h1>T</h1>".toList) ++ '\n' :: subParagraph [] := by
  have h1 : pre11 (formatBody "# T".toList) = [] ++ ('<' :: "h1>T</h1>".toList) ++ '\n' :: [] := by
    simp +decide [formatBody, pre11, collapseRun, pyStrip, ensureTrailingNL, subInline2,
      subInline1, subHeading, subStanza, subParagraph, close2, close1, isPySpace]
  exact ⟨h1, claim_C8 "# T".toList [] "h1>T</h1>".toList [] h1 (Or.inl rfl) (by decide)⟩

theorem takeWhile_append_all {p : α → Bool} {l1 l2 : List α}
    (h : ∀ x ∈ l1, p x = true) :
    (l1 ++ l2).takeWhile p = l1 ++ l2.takeWhile p := by
  induction l1 with
  | nil => simp
  | cons a l1 ih =>
    have ha : p a := h a (by simp)
    simp only [List.cons_append, List.takeWhile_cons, ha]
    simp [ih fun x hx => h x (by simp [hx])]

/-- Claim C2, amended.  `extract_metadata` returns the empty mapping
and the input unchanged whenever the search pattern
`^---\s*\n(.*?)\n---` has no match: in particular for every input
whose first three characters are not `---`, and for every input with
no occurrence of `\n---` at all -- which covers every unterminated
block.  (The claim's quantification over all inputs without a
spec-well-formed block fails: a block closed by a line merely starting
with `---` is still consumed; see the counterexample.) -/
theorem claim_C2 (s : List Char)
    (h : s.take 3 ≠ ['-', '-', '-'] ∨ findClose3 s = none) :
    extractMetadata s = ([], s) := by
  unfold extractMetadata
  rcases h with h | h
  · rw [if_neg h]
  · split
    · have hnone : ∀ k, tryK (s.drop 3) k = none := by
        apply tryK_none_of_findClose3_none
        intro n
        rw [List.drop_drop, Nat.add_comm]
        exact findClose3_drop_none h (n + 3)
      rw [hnone]
    · rfl

/-- Claim C2, counterexample.  `---\nx\n---abc` does not begin with a
well-formed metadata block in the spec's sense (no line consisting
exactly of a closing `---`), yet `extract_metadata` consumes
`---\nx\n---` and returns the remainder `abc`: the code's closing
delimiter is the bare occurrence `\n---`, not a full line. -/
theorem claim_C2_counterexample :
    extractMetadata "---\nx\n---abc".toList = ([], "abc".toList) ∧
      "abc".toList ≠ "---\nx\n---abc".toList := by
  constructor
  · simp +decide [extractMetadata, tryK, findClose3, parseMeta, pyFindKV, kvKey,
      kvAfterKey, kvT, kvT1, kvValue, kvAfterLine, kvRun, kvZ, kvCont,
      isPySpace, isWordDash]
  · decide

/-- Witness for claim C2 at the unterminated block highlighted by the
claim: an opening `---` line never followed by a closing `---`. -/
theorem claim_C2_witness :
    findClose3 "---\ntitle: T\nno closing".toList = none ∧
      extractMetadata "---\ntitle: T\nno closing".toList =
        ([], "---\ntitle: T\nno closing".toList) :=
  ⟨by decide, claim_C2 _ (Or.inr (by decide))⟩

/-- Claim C3, counterexample.  A document whose first line is ` ---`
(leading whitespace before the dashes) satisfies the claim's "exactly
`---` possibly with surrounding whitespace", yet the pattern `^---`
requires the dashes to be the very first characters: no block is
found and the input is returned unchanged. -/
theorem claim_C3_counterexample :
    extractMetadata " ---\na: b\n---\nX".toList =
      ([], " ---\na: b\n---\nX".toList) := by
  decide

/-- Claim C3, amended.  When the opening `---` starts at the very
first character of the document (only trailing whitespace is allowed
on the opening line), followed by at least one further line and later
by a line starting with `---`, the block is found: the extractor
returns the parse of some interior together with a proper suffix of
the document, removing a non-empty matched prefix. -/
theorem claim_C3 (ws mid rest : List Char) (hws : ∀ c ∈ ws, isPySpace c = true) :
    ∃ interior after pfx,
      extractMetadata
        ('-' :: '-' :: '-' :: (ws ++ '\n' :: (mid ++ '\n' :: '-' :: '-' :: '-' :: rest))) =
        (parseMeta interior, after) ∧
      ('-' :: '-' :: '-' :: (ws ++ '\n' :: (mid ++ '\n' :: '-' :: '-' :: '-' :: rest))) =
        pfx ++ after ∧
      pfx ≠ [] := by
  have hdrop0 : ((ws ++ '\n' :: (mid ++ '\n' :: '-' :: '-' :: '-' :: rest)).drop ws.length) =
      '\n' :: (mid ++ '\n' :: '-' :: '-' :: '-' :: rest) := by
    simpa using List.drop_left ws ('\n' :: (mid ++ '\n' :: '-' :: '-' :: '-' :: rest))
  have hdrop1 : ((ws ++ '\n' :: (mid ++ '\n' :: '-' :: '-' :: '-' :: rest)).drop (ws.length + 1)) =
      mid ++ '\n' :: '-' :: '-' :: '-' :: rest := by
    rw [← List.drop_drop, hdrop0]
    simp
  have hK : ws.length ≤
      ((ws ++ '\n' :: (mid ++ '\n' :: '-' :: '-' :: '-' :: rest)).takeWhile isPySpace).length := by
    rw [takeWhile_append_all hws]
    simp
  have hcand : (tryK (ws ++ '\n' :: (mid ++ '\n' :: '-' :: '-' :: '-' :: rest))
      (((ws ++ '\n' :: (mid ++ '\n' :: '-' :: '-' :: '-' :: rest)).takeWhile isPySpace).length)).isSome := by
    apply tryK_isSome_of_candidate
    refine ⟨ws.length, hK, ?_, ?_⟩
    · rw [hdrop0]
      rfl
    · rw [hdrop1]
      exact findClose3_isSome_of_append mid rest
  obtain ⟨p, hp⟩ := Option.isSome_iff_exists.mp hcand
  obtain ⟨k, hk⟩ := tryK_eq_some hp
  refine ⟨p.1, p.2, ?_⟩
  have hext : extractMetadata
      ('-' :: '-' :: '-' :: (ws ++ '\n' :: (mid ++ '\n' :: '-' :: '-' :: '-' :: rest))) =
      (parseMeta p.1, p.2) := by
    unfold extractMetadata
    rw [if_pos (by simp)]
    have hd3 : (('-' :: '-' :: '-' ::
        (ws ++ '\n' :: (mid ++ '\n' :: '-' :: '-' :: '-' :: rest))).drop 3) =
        ws ++ '\n' :: (mid ++ '\n' :: '-' :: '-' :: '-' :: rest) := rfl
    rw [hd3, hp]
  rcases hk with hk | hk
  · refine ⟨'-' :: '-' :: '-' ::
      ((ws ++ '\n' :: (mid ++ '\n' :: '-' :: '-' :: '-' :: rest)).take k ++
        '\n' :: (p.1 ++ ['\n', '-', '-', '-'])), hext, ?_, by simp⟩
    conv_lhs => rw [show (ws ++ '\n' :: (mid ++ '\n' :: '-' :: '-' :: '-' :: rest)) =
      ((ws ++ '\n' :: (mid ++ '\n' :: '-' :: '-' :: '-' :: rest)).take k ++
        (ws ++ '\n' :: (mid ++ '\n' :: '-' :: '-' :: '-' :: rest)).drop k) from
      (List.take_append_drop k _).symm]
    rw [hk]
    simp
  · refine ⟨'-' :: '-' :: '-' ::
      ((ws ++ '\n' :: (mid ++ '\n' :: '-' :: '-' :: '-' :: rest)).take (k + 1) ++
        (p.1 ++ ['\n', '-', '-', '-'])), hext, ?_, by simp⟩
    conv_lhs => rw [show (ws ++ '\n' :: (mid ++ '\n' :: '-' :: '-' :: '-' :: rest)) =
      ((ws ++ '\n' :: (mid ++ '\n' :: '-' :: '-' :: '-' :: rest)).take (k + 1) ++
        (ws ++ '\n' :: (mid ++ '\n' :: '-' :: '-' :: '-' :: rest)).drop (k + 1)) from
      (List.take_append_drop (k + 1) _).symm]
    rw [hk]
    simp

/-- Witness for claim C3 at the spec's own round-trip example
document `---\ntitle: T\n---\nBody`. -/
theorem claim_C3_witness :
    ∃ interior after pfx,
      extractMetadata "---\ntitle: T\n---\nBody".toList = (parseMeta interior, after) ∧
      "---\ntitle: T\n---\nBody".toList = pfx ++ after ∧
      pfx ≠ [] := by
  have h := claim_C3 [] "title: T".toList "\nBody".toList (by decide)
  have e : ('-' :: '-' :: '-' ::
      (([] : List Char) ++ '\n' :: ("title: T".toList ++ '\n' :: '-' :: '-' :: '-' :: "\nBody".toList))) =
      "---\ntitle: T\n---\nBody".toList := by decide
  rw [e] at h
  exact h
